import Mathlib

/-!
Verification development for the rust-simple-bencode library.

The Rust source is shallowly embedded as follows:
* `Vec<u8>` byte buffers become `List Nat` (each entry a byte value < 256);
* `i64` becomes `Int`, and every arithmetic operation of the Rust source that
  can wrap (release-mode two's-complement wraparound) is made explicit with
  `wrap64`; `usize` arithmetic likewise wraps modulo `2^64`;
* `HashMap<Vec<u8>, Value>` becomes an association list `List (List Nat × Value)`;
  a map built by the decoder or by repeated insertion is kept in strictly
  ascending key order, which is the canonical representative of the hash map's
  abstract key/value set (insertion order is unobservable in a `HashMap`);
* the byte iterator of the decoder becomes explicit state passing: each reader
  takes the remaining input list and returns the unconsumed remainder;
* fallible operations return `DRes`, which mirrors `Result<_, DecodeError>`
  plus two markers: `panicked` models a Rust `assert!` failure (reachable in
  `read_string` when called with a non-digit first byte), and `outOfFuel` is an
  embedding artifact of the fuel parameter that makes the mutually recursive
  parser structurally terminating.
-/

namespace Bencode

/-- The possible value types in a bencode object (src/value.rs).
`Dictionary` holds the association list of a `HashMap<Vec<u8>, Value>`;
a canonically represented dictionary keeps keys strictly ascending. -/
inductive Value where
  | String (s : List Nat)
  | Integer (i : Int)
  | List (l : List Value)
  | Dictionary (d : List (List Nat × Value))

/-- Parsing context of an unexpected-character error; together with the
offending byte it determines the format string of the Rust source. -/
inductive CharCtx where
  | integer      -- "'{}' while reading an integer."
  | stringLength -- "'{}' while reading a string length"
  | firstByte    -- "'{}' instead of the first byte of an object."
deriving DecidableEq

/-- Decode errors (src/decoder.rs, enum DecodeError). -/
inductive DecodeError where
  | IOError
  | UnexpectedEndOfBuffer
  | UnexpectedCharacter (b : Nat) (ctx : CharCtx)
deriving DecidableEq

/-- Result of a decoding step: `ok`/`err` mirror `Result`; `panicked` models a
Rust panic (failed assert); `outOfFuel` is the fuel-exhaustion artifact. -/
inductive DRes (α : Type) where
  | ok (a : α)
  | err (e : DecodeError)
  | panicked
  | outOfFuel

/-- Two's-complement wraparound of an i64 arithmetic result
(release-mode Rust semantics); 9223372036854775808 = 2^63. -/
def wrap64 (x : Int) : Int :=
  (x + 9223372036854775808) % 18446744073709551616 - 9223372036854775808

/-- Byte-wise lexicographic strict order on byte vectors: the `Ord` instance
of `Vec<u8>` used by `sort_by_key` in the encoder. -/
def lexLt : List Nat → List Nat → Bool
  | [], [] => false
  | [], _ :: _ => true
  | _ :: _, [] => false
  | a :: as, b :: bs => if a < b then true else if b < a then false else lexLt as bs

/-- Model of `HashMap::insert`: overwrite the entry of an existing key, else
add the entry, keeping the canonical strictly ascending key order. -/
def mapInsert (m : List (List Nat × Value)) (k : List Nat) (v : Value) :
    List (List Nat × Value) :=
  match m with
  | [] => [(k, v)]
  | (k', v') :: t =>
    if lexLt k k' then (k, v) :: (k', v') :: t
    else if k = k' then (k, v) :: t
    else (k', v') :: mapInsert t k v

/-- Model of `HashMap::get`-style lookup (first matching key). -/
def mapGet (m : List (List Nat × Value)) (k : List Nat) : Option Value :=
  match m with
  | [] => none
  | (k', v') :: t => if k = k' then some v' else mapGet t k

/-- Model of `HashMap::remove`: the removed value (if any) and the map
without that entry. -/
def mapRemove (m : List (List Nat × Value)) (k : List Nat) :
    Option Value × List (List Nat × Value) :=
  match m with
  | [] => (none, [])
  | (k', v') :: t =>
    if k = k' then (some v', t)
    else
      match mapRemove t k with
      | (r, t') => (r, (k', v') :: t')

/-- One insertion step of a stable insertion sort by key: place the new pair
before the first pair whose key is not smaller. -/
def insSorted (p : List Nat × Value) :
    List (List Nat × Value) → List (List Nat × Value)
  | [] => [p]
  | q :: t => if lexLt q.1 p.1 then q :: insSorted p t else p :: q :: t

/-- Model of `items.sort_by_key(|&(k, _v)| k)` in `write_dictionary`:
a stable sort of the dictionary entries by key. -/
def sortByKey (d : List (List Nat × Value)) : List (List Nat × Value) :=
  d.foldr insSorted []

/-- Building a `HashMap` by inserting a sequence of key/value pairs in order. -/
def buildMap (ps : List (List Nat × Value)) : List (List Nat × Value) :=
  ps.foldl (fun m p => mapInsert m p.1 p.2) []

/-- Keys of the dictionary entries are pairwise adjacent strictly ascending. -/
def sortedKeysStrict : List (List Nat × Value) → Bool
  | [] => true
  | [_] => true
  | p :: q :: t => lexLt p.1 q.1 && sortedKeysStrict (q :: t)

/-- Decimal digit list (most significant first) of a natural number, with an
explicit fuel argument that makes the recursion structural; the fuel branch is
unreachable whenever `n < fuel`. -/
def natDigitsAux : Nat → Nat → List Nat → List Nat
  | 0, n, acc => n :: acc
  | fuel + 1, n, acc =>
    if n < 10 then n :: acc else natDigitsAux fuel (n / 10) (n % 10 :: acc)

/-- Decimal digits of `n`, most significant first; `natDigits 0 = [0]`. -/
def natDigits (n : Nat) : List Nat := natDigitsAux (n + 1) n []

/-- Bytes of the decimal representation `format!("{}", i)` of an i64:
an optional minus sign (byte 45) followed by ASCII digits. -/
def intRepr (i : Int) : List Nat :=
  if i < 0 then 45 :: (natDigits i.natAbs).map (· + 48)
  else (natDigits i.toNat).map (· + 48)

/-- Bytes emitted by `write_string`: the decimal length, a colon (58), then
the raw bytes. -/
def write_string (s : List Nat) : List Nat :=
  (natDigits s.length).map (· + 48) ++ 58 :: s

/-- Bytes emitted by `write_integer`: 105 = i, then the decimal
representation, then 101 = e. -/
def write_integer (i : Int) : List Nat := 105 :: intRepr i ++ [101]

theorem sizeOf_insSorted (p : List Nat × Value) (l : List (List Nat × Value)) :
    sizeOf (insSorted p l) = sizeOf (p :: l) := by
  induction l with
  | nil => rfl
  | cons q t ih =>
    simp only [insSorted]
    split
    · simp only [List.cons.sizeOf_spec, ih]; omega
    · rfl

theorem sizeOf_sortByKey (d : List (List Nat × Value)) :
    sizeOf (sortByKey d) = sizeOf d := by
  induction d with
  | nil => rfl
  | cons p t ih =>
    simp only [sortByKey, List.foldr_cons] at *
    rw [sizeOf_insSorted]
    simp only [List.cons.sizeOf_spec]
    omega

mutual

/-- Encoder dispatch (src/encoder.rs, fn write), specialized to the in-memory
`Vec<u8>` sink: the produced bytes. -/
def write : Value → List Nat
  | .String s => write_string s
  | .Integer i => write_integer i
  | .List l => write_list l
  | .Dictionary d => write_dictionary d
termination_by v => 2 * sizeOf v

/-- Bytes emitted by `write_list`: 108 = l, the items, 101 = e. -/
def write_list (l : List Value) : List Nat := 108 :: write_items l ++ [101]
termination_by 2 * sizeOf l + 1

/-- The item loop of `write_list`. -/
def write_items : List Value → List Nat
  | [] => []
  | v :: t => write v ++ write_items t
termination_by l => 2 * sizeOf l

/-- Bytes emitted by `write_dictionary`: 100 = d, the pairs sorted by key,
101 = e. -/
def write_dictionary (d : List (List Nat × Value)) : List Nat :=
  100 :: write_pairs (sortByKey d) ++ [101]
termination_by 2 * sizeOf d + 1
decreasing_by simp_wf; rw [sizeOf_sortByKey]; omega

/-- The pair loop of `write_dictionary`: each key via `write_string`, then
the value. -/
def write_pairs : List (List Nat × Value) → List Nat
  | [] => []
  | (k, v) :: t => write_string k ++ write v ++ write_pairs t
termination_by ps => 2 * sizeOf ps

end

/-- Model of `encode` (src/encoder.rs): writing into a fresh `Vec` buffer,
whose sink never rejects writes (the unreachability of the `unwrap` is proved
about `writeSink` below). -/
def encode (v : Value) : List Nat := write v

/-- The digit-accumulation loop of `read_integer`; `res` is the running i64
value, each step wrapping as in release-mode Rust. Returns the accumulated
value (the sign is applied by the caller) and the remaining input. -/
def readIntLoop (res : Int) : List Nat → DRes (Int × List Nat)
  | [] => .err .UnexpectedEndOfBuffer
  | d :: rest =>
    if d = 101 then .ok (res, rest)
    else if 48 ≤ d ∧ d ≤ 57 then
      readIntLoop (wrap64 (wrap64 (res * 10) + ((d : Int) - 48))) rest
    else .err (.UnexpectedCharacter d .integer)

/-- Model of `read_integer` (src/decoder.rs): peek for an optional minus sign,
then accumulate digits until the terminating 101 = e. -/
def read_integer (input : List Nat) : DRes (Int × List Nat) :=
  match input with
  | [] => .err .UnexpectedEndOfBuffer
  | c :: rest =>
    let mult : Int := if c = 45 then -1 else 1
    let body := if c = 45 then rest else c :: rest
    match readIntLoop 0 body with
    | .ok (res, rem) => .ok (wrap64 (mult * res), rem)
    | .err e => .err e
    | .panicked => .panicked
    | .outOfFuel => .outOfFuel

/-- The length-accumulation loop of `read_string`; `len` is the running usize
length, each step wrapping modulo 2^64 as in release-mode Rust
(18446744073709551616 = 2^64). -/
def readStrLen (len : Nat) : List Nat → DRes (Nat × List Nat)
  | [] => .err .UnexpectedEndOfBuffer
  | d :: rest =>
    if d = 58 then .ok (len, rest)
    else if 48 ≤ d ∧ d ≤ 57 then
      readStrLen ((((len * 10) % 18446744073709551616 + d) % 18446744073709551616
        + 18446744073709551616 - 48) % 18446744073709551616) rest
    else .err (.UnexpectedCharacter d .stringLength)

/-- Reading exactly `n` raw bytes of string payload. -/
def takeN (n : Nat) (input : List Nat) : DRes (List Nat × List Nat) :=
  match n, input with
  | 0, rem => .ok ([], rem)
  | _ + 1, [] => .err .UnexpectedEndOfBuffer
  | n + 1, b :: rest =>
    match takeN n rest with
    | .ok (s, rem) => .ok (b :: s, rem)
    | .err e => .err e
    | .panicked => .panicked
    | .outOfFuel => .outOfFuel

/-- Model of `read_string` (src/decoder.rs): the first (already consumed) byte
must be an ASCII digit — the source asserts this, so a non-digit panics —
then further length digits until the colon, then the payload. -/
def read_string (first_byte : Nat) (input : List Nat) : DRes (List Nat × List Nat) :=
  if 48 ≤ first_byte ∧ first_byte ≤ 57 then
    match readStrLen (first_byte - 48) input with
    | .ok (len, rem) => takeN len rem
    | .err e => .err e
    | .panicked => .panicked
    | .outOfFuel => .outOfFuel
  else .panicked

/-- The element loop of `read_list` (src/decoder.rs, fn read_list), taking the
value reader as a parameter. The loop peeks at the next byte and breaks on
101 = e WITHOUT consuming it (the source only calls peek before break), which
is why the terminator stays in the returned remainder. -/
def read_list_loop (rd : List Nat → DRes (Value × List Nat)) :
    Nat → List Nat → DRes (List Value × List Nat)
  | 0, _ => .outOfFuel
  | fuel + 1, input =>
    match input with
    | [] => .err .UnexpectedEndOfBuffer
    | b :: rest =>
      if b = 101 then .ok ([], b :: rest)
      else
        match rd (b :: rest) with
        | .ok (v, rem) =>
          match read_list_loop rd fuel rem with
          | .ok (l, rem2) => .ok (v :: l, rem2)
          | .err e => .err e
          | .panicked => .panicked
          | .outOfFuel => .outOfFuel
        | .err e => .err e
        | .panicked => .panicked
        | .outOfFuel => .outOfFuel

/-- The pair loop of `read_dict` (src/decoder.rs, fn read_dict): read a byte,
break on a consumed 101 = e, otherwise parse a key with `read_string` (whose
assert panics if the byte is no digit), parse a value, insert, repeat. -/
def read_dict_loop (rd : List Nat → DRes (Value × List Nat)) :
    Nat → List (List Nat × Value) → List Nat → DRes (List (List Nat × Value) × List Nat)
  | 0, _, _ => .outOfFuel
  | fuel + 1, m, input =>
    match input with
    | [] => .err .UnexpectedEndOfBuffer
    | b :: rest =>
      if b = 101 then .ok (m, rest)
      else
        match read_string b rest with
        | .ok (k, rem) =>
          match rd rem with
          | .ok (v, rem2) => read_dict_loop rd fuel (mapInsert m k v) rem2
          | .err e => .err e
          | .panicked => .panicked
          | .outOfFuel => .outOfFuel
        | .err e => .err e
        | .panicked => .panicked
        | .outOfFuel => .outOfFuel

/-- Model of `read` (src/decoder.rs): dispatch on the first byte — 105 = i
integer, 108 = l list, 100 = d dictionary, ASCII digit string, anything else a
syntax error. Returns the parsed value and the unconsumed remainder (the
mutated iterator state of the source). -/
def read : Nat → List Nat → DRes (Value × List Nat)
  | 0, _ => .outOfFuel
  | fuel + 1, input =>
    match input with
    | [] => .err .UnexpectedEndOfBuffer
    | b :: rest =>
      if b = 105 then
        match read_integer rest with
        | .ok (i, rem) => .ok (.Integer i, rem)
        | .err e => .err e
        | .panicked => .panicked
        | .outOfFuel => .outOfFuel
      else if b = 108 then
        match read_list_loop (read fuel) fuel rest with
        | .ok (l, rem) => .ok (.List l, rem)
        | .err e => .err e
        | .panicked => .panicked
        | .outOfFuel => .outOfFuel
      else if b = 100 then
        match read_dict_loop (read fuel) fuel [] rest with
        | .ok (d, rem) => .ok (.Dictionary d, rem)
        | .err e => .err e
        | .panicked => .panicked
        | .outOfFuel => .outOfFuel
      else if 48 ≤ b ∧ b ≤ 57 then
        match read_string b rest with
        | .ok (s, rem) => .ok (.String s, rem)
        | .err e => .err e
        | .panicked => .panicked
        | .outOfFuel => .outOfFuel
      else .err (.UnexpectedCharacter b .firstByte)

/-- Model of `decode` (src/decoder.rs): read one value from the byte slice and
drop the remainder. The fuel 2*length+2 is always sufficient: every unit of
recursion consumes input, so `outOfFuel` is unreachable from here. -/
def decode (sl : List Nat) : DRes Value :=
  match read (2 * sl.length + 2) sl with
  | .ok (v, _) => .ok v
  | .err e => .err e
  | .panicked => .panicked
  | .outOfFuel => .outOfFuel

/-- Model of one `writer.write(chunk)` call against an abstract byte sink:
`accept` decides (from the bytes written so far and the chunk) whether the
sink accepts the write; the `Vec` sink of `encode` accepts everything. -/
def sinkWrite (accept : List Nat → List Nat → Bool) (buf chunk : List Nat) :
    Except Unit (List Nat) :=
  if accept buf chunk then .ok (buf ++ chunk) else .error ()

/-- Model of `write_string` against an abstract sink: two write calls, the
length header and the payload. -/
def writeSinkString (accept : List Nat → List Nat → Bool) (s : List Nat)
    (buf : List Nat) : Except Unit (List Nat) :=
  match sinkWrite accept buf ((natDigits s.length).map (· + 48) ++ [58]) with
  | .ok buf1 => sinkWrite accept buf1 s
  | .error e => .error e

mutual

/-- Model of `write` (src/encoder.rs) against an abstract sink, mirroring
each `writer.write` call of the source. -/
def writeSink (accept : List Nat → List Nat → Bool) :
    Value → List Nat → Except Unit (List Nat)
  | .String s, buf => writeSinkString accept s buf
  | .Integer i, buf => sinkWrite accept buf (105 :: intRepr i ++ [101])
  | .List l, buf =>
    match sinkWrite accept buf [108] with
    | .ok buf1 =>
      match writeSinkItems accept l buf1 with
      | .ok buf2 => sinkWrite accept buf2 [101]
      | .error e => .error e
    | .error e => .error e
  | .Dictionary d, buf =>
    match sinkWrite accept buf [100] with
    | .ok buf1 =>
      match writeSinkPairs accept (sortByKey d) buf1 with
      | .ok buf2 => sinkWrite accept buf2 [101]
      | .error e => .error e
    | .error e => .error e
termination_by v _ => 2 * sizeOf v
decreasing_by
  all_goals simp_wf
  all_goals first
    | omega
    | (rw [sizeOf_sortByKey]; omega)

/-- The item loop of `write_list` against an abstract sink. -/
def writeSinkItems (accept : List Nat → List Nat → Bool) :
    List Value → List Nat → Except Unit (List Nat)
  | [], buf => .ok buf
  | v :: t, buf =>
    match writeSink accept v buf with
    | .ok buf1 => writeSinkItems accept t buf1
    | .error e => .error e
termination_by l _ => 2 * sizeOf l

/-- The pair loop of `write_dictionary` against an abstract sink. -/
def writeSinkPairs (accept : List Nat → List Nat → Bool) :
    List (List Nat × Value) → List Nat → Except Unit (List Nat)
  | [], buf => .ok buf
  | (k, v) :: t, buf =>
    match writeSinkString accept k buf with
    | .ok buf1 =>
      match writeSink accept v buf1 with
      | .ok buf2 => writeSinkPairs accept t buf2
      | .error e => .error e
    | .error e => .error e
termination_by ps _ => 2 * sizeOf ps

end

/-- Errors of the decoding helpers (src/decoding_helpers.rs). `BadType`
carries the key and offending value of its format string, `FromUtf8Error` the
rejected bytes. -/
inductive HelperDecodeError where
  | BencodeDecodeError (e : DecodeError)
  | BadType (key : List Nat) (v : Value)
  | MissingKey (key : List Nat)
  | FromUtf8Error (bytes : List Nat)

/-- Model of `pop_value_integer`: remove the entry (also on a type mismatch),
then require the `Integer` variant. The pair returns the mutated map and the
`Result`. -/
def pop_value_integer (map : List (List Nat × Value)) (key : List Nat) :
    List (List Nat × Value) × Except HelperDecodeError Int :=
  match mapRemove map key with
  | (some (.Integer value), map') => (map', .ok value)
  | (some v, map') => (map', .error (.BadType key v))
  | (none, map') => (map', .error (.MissingKey key))

/-- Model of `pop_value_integer_option`: a missing key becomes
success-with-nothing, every other error passes through. -/
def pop_value_integer_option (map : List (List Nat × Value)) (key : List Nat) :
    List (List Nat × Value) × Except HelperDecodeError (Option Int) :=
  match pop_value_integer map key with
  | (map', .ok value) => (map', .ok (some value))
  | (map', .error (.MissingKey _)) => (map', .ok none)
  | (map', .error e) => (map', .error e)

/-- Model of `pop_value_bytestring`: remove the entry (also on a type
mismatch), then require the `String` variant. -/
def pop_value_bytestring (map : List (List Nat × Value)) (key : List Nat) :
    List (List Nat × Value) × Except HelperDecodeError (List Nat) :=
  match mapRemove map key with
  | (some (.String value), map') => (map', .ok value)
  | (some v, map') => (map', .error (.BadType key v))
  | (none, map') => (map', .error (.MissingKey key))

/-- Model of `pop_value_bytestring_option`. -/
def pop_value_bytestring_option (map : List (List Nat × Value)) (key : List Nat) :
    List (List Nat × Value) × Except HelperDecodeError (Option (List Nat)) :=
  match pop_value_bytestring map key with
  | (map', .ok value) => (map', .ok (some value))
  | (map', .error (.MissingKey _)) => (map', .ok none)
  | (map', .error e) => (map', .error e)

/-- UTF-8 validity of a byte sequence, as checked by `String::from_utf8`:
RFC 3629 well-formedness (no overlong forms, no surrogates, max U+10FFFF). -/
def validUtf8 : List Nat → Bool
  | [] => true
  | b :: rest =>
    if b < 128 then validUtf8 rest
    else if b < 194 then false
    else if b < 224 then
      match rest with
      | c1 :: rest2 => (128 ≤ c1 && c1 < 192) && validUtf8 rest2
      | [] => false
    else if b < 240 then
      match rest with
      | c1 :: c2 :: rest2 =>
        (if b = 224 then 160 ≤ c1 && c1 < 192
         else if b = 237 then 128 ≤ c1 && c1 < 160
         else 128 ≤ c1 && c1 < 192)
          && ((128 ≤ c2 && c2 < 192) && validUtf8 rest2)
      | _ => false
    else if b < 245 then
      match rest with
      | c1 :: c2 :: c3 :: rest2 =>
        (if b = 240 then 144 ≤ c1 && c1 < 192
         else if b = 244 then 128 ≤ c1 && c1 < 144
         else 128 ≤ c1 && c1 < 192)
          && ((128 ≤ c2 && c2 < 192) && ((128 ≤ c3 && c3 < 192) && validUtf8 rest2))
      | _ => false
    else false

/-- Model of `pop_value_utf8_string`: pop the byte-string, then validate it as
UTF-8 (the model keeps the decoded Rust `String` as its byte sequence). -/
def pop_value_utf8_string (map : List (List Nat × Value)) (key : List Nat) :
    List (List Nat × Value) × Except HelperDecodeError (List Nat) :=
  match pop_value_bytestring map key with
  | (map', .ok encoded) =>
    if validUtf8 encoded then (map', .ok encoded)
    else (map', .error (.FromUtf8Error encoded))
  | (map', .error e) => (map', .error e)

/-- Model of `pop_value_utf8_string_option`. -/
def pop_value_utf8_string_option (map : List (List Nat × Value)) (key : List Nat) :
    List (List Nat × Value) × Except HelperDecodeError (Option (List Nat)) :=
  match pop_value_utf8_string map key with
  | (map', .ok value) => (map', .ok (some value))
  | (map', .error (.MissingKey _)) => (map', .ok none)
  | (map', .error e) => (map', .error e)

mutual

/-- A value containing no `List` constructor anywhere. The decoder parses such
values cleanly because only `read_list` fails to consume its terminator. -/
def noList : Value → Bool
  | .String _ => true
  | .Integer _ => true
  | .List _ => false
  | .Dictionary d => noListPairs d
termination_by v => sizeOf v

/-- All dictionary values are `List`-free. -/
def noListPairs : List (List Nat × Value) → Bool
  | [] => true
  | (_, v) :: t => noList v && noListPairs t
termination_by ps => sizeOf ps

end

mutual

/-- A `Value` that a real Rust value tree can denote: byte entries fit in u8,
lengths fit in usize, integers fit in i64, and dictionaries are in canonical
(strictly ascending, hence duplicate-free) key order. -/
def validV : Value → Bool
  | .String s => decide (s.length < 18446744073709551616) && s.all (· < 256)
  | .Integer i => decide (-9223372036854775808 ≤ i) && decide (i < 9223372036854775808)
  | .List l => validItems l
  | .Dictionary d => sortedKeysStrict d && validPairs d
termination_by v => sizeOf v

/-- Validity of every list element. -/
def validItems : List Value → Bool
  | [] => true
  | v :: t => validV v && validItems t
termination_by l => sizeOf l

/-- Validity of every dictionary key and value. -/
def validPairs : List (List Nat × Value) → Bool
  | [] => true
  | (k, v) :: t =>
    (decide (k.length < 18446744073709551616) && k.all (· < 256))
      && (validV v && validPairs t)
termination_by ps => sizeOf ps

end

theorem lexLt_irrefl (l : List Nat) : lexLt l l = false := by
  induction l with
  | nil => rfl
  | cons a t ih => simp [lexLt, ih]

theorem lexLt_asymm {a b : List Nat} (h : lexLt a b = true) : lexLt b a = false := by
  induction a generalizing b with
  | nil =>
    cases b with
    | nil => simp [lexLt] at h
    | cons y ys => simp [lexLt]
  | cons x xs ih =>
    cases b with
    | nil => simp [lexLt] at h
    | cons y ys =>
      simp only [lexLt] at h ⊢
      rcases Nat.lt_trichotomy x y with hlt | heq | hgt
      · simp [hlt, Nat.lt_asymm hlt]
      · subst heq
        simp only [Nat.lt_irrefl, if_false] at h ⊢
        exact ih h
      · simp [hgt, Nat.lt_asymm hgt] at h

theorem lexLt_trans {a b c : List Nat} (h1 : lexLt a b = true)
    (h2 : lexLt b c = true) : lexLt a c = true := by
  induction a generalizing b c with
  | nil =>
    cases b with
    | nil => simp [lexLt] at h1
    | cons y ys =>
      cases c with
      | nil => simp [lexLt] at h2
      | cons z zs => simp [lexLt]
  | cons x xs ih =>
    cases b with
    | nil => simp [lexLt] at h1
    | cons y ys =>
      cases c with
      | nil => simp [lexLt] at h2
      | cons z zs =>
        simp only [lexLt] at h1 h2 ⊢
        rcases Nat.lt_trichotomy x y with hxy | hxy | hxy
        · rcases Nat.lt_trichotomy y z with hyz | hyz | hyz
          · simp [Nat.lt_trans hxy hyz]
          · subst hyz; simp [hxy]
          · simp [hyz, Nat.lt_asymm hyz] at h2
        · subst hxy
          simp only [Nat.lt_irrefl, if_false] at h1
          rcases Nat.lt_trichotomy x z with hyz | hyz | hyz
          · simp [hyz]
          · subst hyz
            simp only [Nat.lt_irrefl, if_false] at h2 ⊢
            exact ih h1 h2
          · simp [hyz, Nat.lt_asymm hyz] at h2
        · simp [hxy, Nat.lt_asymm hxy] at h1

theorem lexLt_total {a b : List Nat} (h1 : lexLt a b = false)
    (h2 : lexLt b a = false) : a = b := by
  induction a generalizing b with
  | nil =>
    cases b with
    | nil => rfl
    | cons y ys => simp [lexLt] at h1
  | cons x xs ih =>
    cases b with
    | nil => simp [lexLt] at h2
    | cons y ys =>
      simp only [lexLt] at h1 h2
      rcases Nat.lt_trichotomy x y with hxy | hxy | hxy
      · simp [hxy] at h1
      · subst hxy
        simp only [Nat.lt_irrefl, if_false] at h1 h2
        rw [ih h1 h2]
      · simp [hxy, Nat.lt_asymm hxy] at h2

theorem mapRemove_fst (m : List (List Nat × Value)) (k : List Nat) :
    (mapRemove m k).1 = mapGet m k := by
  induction m with
  | nil => rfl
  | cons p t ih =>
    obtain ⟨k', v'⟩ := p
    simp only [mapRemove, mapGet]
    split
    · rfl
    · simpa using ih

theorem mapRemove_of_none {m : List (List Nat × Value)} {k : List Nat}
    (h : mapGet m k = none) : mapRemove m k = (none, m) := by
  induction m with
  | nil => rfl
  | cons p t ih =>
    obtain ⟨k', v'⟩ := p
    simp only [mapGet] at h
    simp only [mapRemove]
    rcases Decidable.em (k = k') with he | he
    · simp [he] at h
    · rw [if_neg he] at h ⊢
      rw [ih h]

theorem mapGet_eq_none_iff (m : List (List Nat × Value)) (k : List Nat) :
    mapGet m k = none ↔ k ∉ m.map Prod.fst := by
  induction m with
  | nil => simp [mapGet]
  | cons p t ih =>
    obtain ⟨k', v'⟩ := p
    simp only [mapGet, List.map_cons, List.mem_cons]
    rcases Decidable.em (k = k') with he | he
    · simp [he]
    · simp [he, ih]

theorem mapGet_remove_self {m : List (List Nat × Value)} {k : List Nat}
    (hnd : (m.map Prod.fst).Nodup) : mapGet (mapRemove m k).2 k = none := by
  induction m with
  | nil => rfl
  | cons p t ih =>
    obtain ⟨k', v'⟩ := p
    simp only [List.map_cons, List.nodup_cons] at hnd
    simp only [mapRemove]
    rcases Decidable.em (k = k') with he | he
    · subst he
      simp only [if_pos rfl]
      exact (mapGet_eq_none_iff t k).2 hnd.1
    · rw [if_neg he]
      simp only [mapGet, if_neg he]
      exact ih hnd.2

theorem mapRemove_length {m : List (List Nat × Value)} {k : List Nat} {v : Value}
    (h : mapGet m k = some v) : (mapRemove m k).2.length + 1 = m.length := by
  induction m with
  | nil => simp [mapGet] at h
  | cons p t ih =>
    obtain ⟨k', v'⟩ := p
    simp only [mapGet] at h
    simp only [mapRemove]
    rcases Decidable.em (k = k') with he | he
    · simp [he]
    · rw [if_neg he] at h ⊢
      simp only [List.length_cons]
      rw [← ih h]

theorem mapGet_insert_self (m : List (List Nat × Value)) (k : List Nat) (v : Value) :
    mapGet (mapInsert m k v) k = some v := by
  induction m with
  | nil => simp [mapInsert, mapGet]
  | cons p t ih =>
    obtain ⟨k', v'⟩ := p
    simp only [mapInsert]
    split
    · simp [mapGet]
    · split
      · simp [mapGet]
      · next hne => simp [mapGet, hne, ih]

theorem mapGet_insert_ne (m : List (List Nat × Value)) (k : List Nat) (v : Value)
    {k' : List Nat} (h : k' ≠ k) : mapGet (mapInsert m k v) k' = mapGet m k' := by
  induction m with
  | nil => simp [mapInsert, mapGet, h]
  | cons p t ih =>
    obtain ⟨q, w⟩ := p
    simp only [mapInsert]
    split
    · simp [mapGet, h]
    · split
      · next he => subst he; simp [mapGet, h]
      · simp only [mapGet, ih]

theorem sorted_pairwise {l : List (List Nat × Value)} (h : sortedKeysStrict l = true) :
    l.Pairwise (fun p q => lexLt p.1 q.1 = true) := by
  induction l with
  | nil => exact .nil
  | cons p t ih =>
    cases t with
    | nil => simp
    | cons q t' =>
      simp only [sortedKeysStrict, Bool.and_eq_true] at h
      have hpt := ih h.2
      refine List.Pairwise.cons ?_ hpt
      intro r hr
      rcases List.mem_cons.1 hr with he | hr
      · subst he; exact h.1
      · exact lexLt_trans h.1 (List.rel_of_pairwise_cons hpt hr)

theorem pairwise_sorted {l : List (List Nat × Value)}
    (h : l.Pairwise (fun p q => lexLt p.1 q.1 = true)) :
    sortedKeysStrict l = true := by
  induction l with
  | nil => rfl
  | cons p t ih =>
    cases t with
    | nil => rfl
    | cons q t' =>
      rcases List.pairwise_cons.1 h with ⟨hrel, ht⟩
      simp only [sortedKeysStrict, Bool.and_eq_true]
      exact ⟨hrel q (List.mem_cons_self q t'), ih ht⟩

theorem mem_mapInsert {t : List (List Nat × Value)} {k : List Nat} {v : Value}
    {r : List Nat × Value} (h : r ∈ mapInsert t k v) : r = (k, v) ∨ r ∈ t := by
  induction t with
  | nil => simpa [mapInsert] using h
  | cons q t' ih =>
    obtain ⟨k', v'⟩ := q
    simp only [mapInsert] at h
    split at h
    · simpa using h
    · split at h
      · rcases List.mem_cons.1 h with he | ht
        · exact .inl he
        · exact .inr (List.mem_cons_of_mem _ ht)
      · rcases List.mem_cons.1 h with he | ht
        · exact .inr (he ▸ List.mem_cons_self _ _)
        · rcases ih ht with he | ht'
          · exact .inl he
          · exact .inr (List.mem_cons_of_mem _ ht')

theorem mapInsert_pairwise {m : List (List Nat × Value)} {k : List Nat} {v : Value}
    (h : m.Pairwise (fun p q => lexLt p.1 q.1 = true)) :
    (mapInsert m k v).Pairwise (fun p q => lexLt p.1 q.1 = true) := by
  induction m with
  | nil => simp [mapInsert]
  | cons q t ih =>
    obtain ⟨k', v'⟩ := q
    rcases List.pairwise_cons.1 h with ⟨hrel, ht⟩
    simp only [mapInsert]
    split
    · next hlt =>
      refine List.Pairwise.cons ?_ h
      intro r hr
      rcases List.mem_cons.1 hr with he | hr
      · subst he; exact hlt
      · exact lexLt_trans hlt (hrel r hr)
    · split
      · next hne he =>
        subst he
        exact List.Pairwise.cons (fun r hr => hrel r hr) ht
      · next hge hne =>
        refine List.Pairwise.cons ?_ (ih ht)
        intro r hr
        rcases mem_mapInsert hr with he | hr
        · subst he
          simp only
          have : lexLt k k' = false := by
            rcases Bool.eq_false_or_eq_true (lexLt k k') with h' | h'
            · exact absurd h' (by simp [hge])
            · exact h'
          have hk : lexLt k' k = true := by
            rcases Bool.eq_false_or_eq_true (lexLt k' k) with h' | h'
            · exact h'
            · exact absurd (lexLt_total this h') hne
          exact hk
        · exact hrel r hr

theorem buildMap_pairwise (ps : List (List Nat × Value)) :
    (buildMap ps).Pairwise (fun p q => lexLt p.1 q.1 = true) := by
  have h : ∀ m : List (List Nat × Value),
      m.Pairwise (fun p q => lexLt p.1 q.1 = true) →
      (ps.foldl (fun m p => mapInsert m p.1 p.2) m).Pairwise
        (fun p q => lexLt p.1 q.1 = true) := by
    induction ps with
    | nil => intro m hm; simpa using hm
    | cons p t ih =>
      intro m hm
      simp only [List.foldl_cons]
      exact ih _ (mapInsert_pairwise hm)
  exact h [] .nil

theorem sortByKey_eq_of_sorted {d : List (List Nat × Value)}
    (h : d.Pairwise (fun p q => lexLt p.1 q.1 = true)) : sortByKey d = d := by
  induction d with
  | nil => rfl
  | cons p t ih =>
    rcases List.pairwise_cons.1 h with ⟨hrel, ht⟩
    have : sortByKey (p :: t) = insSorted p (sortByKey t) := rfl
    rw [this, ih ht]
    cases t with
    | nil => rfl
    | cons q t' =>
      simp only [insSorted]
      rw [if_neg]
      simp only [lexLt_asymm (hrel q (List.mem_cons_self q t'))]
      exact fun hc => nomatch hc

theorem mapInsert_append_last {m : List (List Nat × Value)} {k : List Nat} {v : Value}
    (h : ∀ q ∈ m, lexLt q.1 k = true) : mapInsert m k v = m ++ [(k, v)] := by
  induction m with
  | nil => rfl
  | cons q t ih =>
    obtain ⟨k', v'⟩ := q
    have hq : lexLt k' k = true := h _ (List.mem_cons_self _ _)
    simp only [mapInsert]
    rw [if_neg (by simp [lexLt_asymm hq]), if_neg]
    · rw [ih (fun r hr => h r (List.mem_cons_of_mem _ hr))]
      rfl
    · intro he
      subst he
      rw [lexLt_irrefl] at hq
      exact nomatch hq

theorem foldl_insert_of_sorted_append (ps : List (List Nat × Value)) :
    ∀ m, (m ++ ps).Pairwise (fun p q => lexLt p.1 q.1 = true) →
      ps.foldl (fun m p => mapInsert m p.1 p.2) m = m ++ ps := by
  induction ps with
  | nil => intro m _; simp
  | cons p t ih =>
    intro m h
    have hsplit := List.pairwise_append.1 h
    have hq : ∀ q ∈ m, lexLt q.1 p.1 = true := fun q hq =>
      hsplit.2.2 q hq p (List.mem_cons_self p t)
    simp only [List.foldl_cons]
    rw [mapInsert_append_last hq]
    have h' : ((m ++ [p]) ++ t).Pairwise (fun p q => lexLt p.1 q.1 = true) := by
      rw [List.append_assoc]
      simpa using h
    rw [ih (m ++ [p]) h']
    simp

theorem buildMap_of_sorted {d : List (List Nat × Value)}
    (h : d.Pairwise (fun p q => lexLt p.1 q.1 = true)) : buildMap d = d := by
  have := foldl_insert_of_sorted_append d [] (by simpa using h)
  simpa [buildMap] using this

theorem mapGet_eq_some_mem {m : List (List Nat × Value)} {k : List Nat} {v : Value}
    (h : mapGet m k = some v) : k ∈ m.map Prod.fst := by
  by_contra hc
  rw [(mapGet_eq_none_iff m k).2 hc] at h
  exact nomatch h

theorem pairwise_head_lt {k1 : List Nat} {v1 : Value} {t : List (List Nat × Value)}
    (h : ((k1, v1) :: t).Pairwise (fun p q => lexLt p.1 q.1 = true))
    {k : List Nat} (hk : k ∈ t.map Prod.fst) : lexLt k1 k = true := by
  rcases List.mem_map.1 hk with ⟨q, hq, rfl⟩
  exact List.rel_of_pairwise_cons h hq

theorem pairwise_head_not_mem {k1 : List Nat} {v1 : Value} {t : List (List Nat × Value)}
    (h : ((k1, v1) :: t).Pairwise (fun p q => lexLt p.1 q.1 = true)) :
    k1 ∉ t.map Prod.fst := by
  intro hc
  have := pairwise_head_lt h hc
  rw [lexLt_irrefl] at this
  exact nomatch this

theorem perm_mapGet {ps1 ps2 : List (List Nat × Value)} (hp : ps1.Perm ps2)
    (hnd : (ps1.map Prod.fst).Nodup) (k : List Nat) :
    mapGet ps1 k = mapGet ps2 k := by
  induction hp with
  | nil => rfl
  | cons p t ih =>
    simp only [List.map_cons, List.nodup_cons] at hnd
    obtain ⟨k', v'⟩ := p
    simp only [mapGet]
    split
    · rfl
    · exact ih hnd.2
  | swap x y l =>
    obtain ⟨kx, vx⟩ := x
    obtain ⟨ky, vy⟩ := y
    simp only [List.map_cons, List.nodup_cons, List.mem_cons] at hnd
    have hne : ky ≠ kx := fun he => hnd.1 (.inl he)
    by_cases he1 : k = ky
    · subst he1; simp [mapGet, hne]
    · by_cases he2 : k = kx
      · subst he2; simp [mapGet, he1]
      · simp [mapGet, he1, he2]
  | trans h12 _h23 ih12 ih23 =>
    rw [ih12 hnd]
    exact ih23 ((h12.map Prod.fst).nodup hnd)

theorem foldl_insert_get (ps : List (List Nat × Value)) (k : List Nat) :
    ∀ m, (ps.map Prod.fst).Nodup →
      mapGet (ps.foldl (fun m p => mapInsert m p.1 p.2) m) k =
        match mapGet ps k with
        | some v => some v
        | none => mapGet m k := by
  induction ps with
  | nil => intro m _; rfl
  | cons p t ih =>
    intro m hnd
    obtain ⟨kp, vp⟩ := p
    simp only [List.map_cons, List.nodup_cons] at hnd
    simp only [List.foldl_cons]
    rw [ih _ hnd.2]
    rcases Decidable.em (k = kp) with he | he
    · subst he
      have ht : mapGet t k = none := (mapGet_eq_none_iff t k).2 hnd.1
      rw [ht]
      simp only [mapGet, if_pos rfl]
      exact mapGet_insert_self m k vp
    · simp only [mapGet, if_neg he]
      cases mapGet t k with
      | some v => rfl
      | none => exact mapGet_insert_ne m kp vp he

theorem buildMap_get {ps : List (List Nat × Value)}
    (hnd : (ps.map Prod.fst).Nodup) (k : List Nat) :
    mapGet (buildMap ps) k = mapGet ps k := by
  have := foldl_insert_get ps k [] hnd
  simp only [buildMap]
  rw [this]
  cases mapGet ps k <;> rfl

theorem sorted_map_ext {m1 : List (List Nat × Value)} :
    ∀ {m2 : List (List Nat × Value)},
      m1.Pairwise (fun p q => lexLt p.1 q.1 = true) →
      m2.Pairwise (fun p q => lexLt p.1 q.1 = true) →
      (∀ k, mapGet m1 k = mapGet m2 k) → m1 = m2 := by
  induction m1 with
  | nil =>
    intro m2 _ _ hk
    cases m2 with
    | nil => rfl
    | cons p t =>
      obtain ⟨k2, v2⟩ := p
      have := hk k2
      simp [mapGet] at this
  | cons p t1 ih =>
    intro m2 h1 h2 hk
    obtain ⟨k1, v1⟩ := p
    cases m2 with
    | nil =>
      have := hk k1
      simp [mapGet] at this
    | cons q t2 =>
      obtain ⟨k2, v2⟩ := q
      have hg1 : mapGet ((k2, v2) :: t2) k1 = some v1 := by
        rw [← hk k1]; simp [mapGet]
      have hg2 : mapGet ((k1, v1) :: t1) k2 = some v2 := by
        rw [hk k2]; simp [mapGet]
      have hkeq : k1 = k2 := by
        by_contra hne
        have hne' : k2 ≠ k1 := fun he => hne he.symm
        have hm1 : k1 ∈ t2.map Prod.fst :=
          mapGet_eq_some_mem (by simpa [mapGet, hne] using hg1)
        have hm2 : k2 ∈ t1.map Prod.fst :=
          mapGet_eq_some_mem (by simpa [mapGet, hne'] using hg2)
        have l1 := pairwise_head_lt h2 hm1
        have l2 := pairwise_head_lt h1 hm2
        rw [lexLt_asymm l2] at l1
        exact nomatch l1
      subst hkeq
      have hveq : v2 = v1 := by
        simpa [mapGet] using hg1
      subst hveq
      have htail : ∀ k, mapGet t1 k = mapGet t2 k := by
        intro k
        rcases Decidable.em (k = k1) with he | he
        · subst he
          rw [(mapGet_eq_none_iff t1 k).2 (pairwise_head_not_mem h1),
            (mapGet_eq_none_iff t2 k).2 (pairwise_head_not_mem h2)]
        · have := hk k
          simpa [mapGet, he] using this
      rw [ih (List.Pairwise.sublist (List.sublist_cons_self _ _) h1)
        (List.Pairwise.sublist (List.sublist_cons_self _ _) h2) htail]

theorem buildMap_perm {ps1 ps2 : List (List Nat × Value)} (hp : ps1.Perm ps2)
    (hnd : (ps1.map Prod.fst).Nodup) : buildMap ps1 = buildMap ps2 := by
  refine sorted_map_ext (buildMap_pairwise ps1) (buildMap_pairwise ps2) ?_
  intro k
  rw [buildMap_get hnd k, buildMap_get ((hp.map Prod.fst).nodup hnd) k]
  exact perm_mapGet hp hnd k

theorem natDigitsAux_acc (fuel : Nat) : ∀ n acc,
    natDigitsAux fuel n acc = natDigitsAux fuel n [] ++ acc := by
  induction fuel with
  | zero => intro n acc; rfl
  | succ f ih =>
    intro n acc
    simp only [natDigitsAux]
    split
    · rfl
    · rw [ih (n / 10) (n % 10 :: acc), ih (n / 10) [n % 10], List.append_assoc]
      rfl

theorem natDigitsAux_le9 : ∀ fuel n, n < fuel → ∀ d ∈ natDigitsAux fuel n [], d ≤ 9 := by
  intro fuel
  induction fuel with
  | zero => intro n hn; exact absurd hn (Nat.not_lt_zero n)
  | succ f ih =>
    intro n hn d hd
    simp only [natDigitsAux] at hd
    split at hd
    · next h10 =>
      rcases List.mem_singleton.1 hd with rfl
      omega
    · next h10 =>
      rw [natDigitsAux_acc] at hd
      rcases List.mem_append.1 hd with hm | hm
      · exact ih (n / 10) (by omega) d hm
      · rcases List.mem_singleton.1 hm with rfl
        omega

theorem natDigitsAux_ne_nil (fuel n : Nat) : natDigitsAux fuel n [] ≠ [] := by
  cases fuel with
  | zero => simp [natDigitsAux]
  | succ f =>
    simp only [natDigitsAux]
    split
    · simp
    · rw [natDigitsAux_acc]; simp

theorem natDigitsAux_val : ∀ fuel n, n < fuel → ∀ a : Nat,
    List.foldl (fun a d => a * 10 + d) a (natDigitsAux fuel n []) =
      a * 10 ^ (natDigitsAux fuel n []).length + n := by
  intro fuel
  induction fuel with
  | zero => intro n hn; exact absurd hn (Nat.not_lt_zero n)
  | succ f ih =>
    intro n hn a
    simp only [natDigitsAux]
    split
    · next h10 =>
      simp [List.foldl_cons, List.foldl_nil]
    · next h10 =>
      rw [natDigitsAux_acc, List.foldl_append, List.length_append,
        ih (n / 10) (by omega) a]
      simp only [List.foldl_cons, List.foldl_nil, List.length_singleton]
      have hmod : n / 10 * 10 + n % 10 = n := by omega
      rw [pow_succ]
      calc (a * 10 ^ (natDigitsAux f (n / 10) []).length + n / 10) * 10 + n % 10
          = a * (10 ^ (natDigitsAux f (n / 10) []).length * 10)
            + (n / 10 * 10 + n % 10) := by ring
        _ = a * (10 ^ (natDigitsAux f (n / 10) []).length * 10) + n := by rw [hmod]

theorem natDigits_le9 {n : Nat} : ∀ d ∈ natDigits n, d ≤ 9 :=
  natDigitsAux_le9 (n + 1) n (Nat.lt_succ_self n)

theorem natDigits_ne_nil (n : Nat) : natDigits n ≠ [] :=
  natDigitsAux_ne_nil _ _

theorem natDigits_val (n a : Nat) :
    List.foldl (fun a d => a * 10 + d) a (natDigits n) =
      a * 10 ^ (natDigits n).length + n :=
  natDigitsAux_val _ _ (Nat.lt_succ_self n) a

theorem natDigits_foldl_eq (n : Nat) :
    List.foldl (fun a d => a * 10 + d) 0 (natDigits n) = n := by
  have := natDigits_val n 0
  simpa using this

theorem wrap64_zero : wrap64 0 = 0 := by simp only [wrap64]; omega

theorem takeN_exact (s : List Nat) : ∀ rest, takeN s.length (s ++ rest) = .ok (s, rest) := by
  induction s with
  | nil => intro rest; rfl
  | cons b t ih =>
    intro rest
    simp only [List.length_cons, List.cons_append, takeN, List.append_eq]
    rw [ih rest]

theorem readIntLoop_digits (ds : List Nat) (hds : ∀ d ∈ ds, d ≤ 9) (rest : List Nat) :
    ∀ res : Int, readIntLoop res (ds.map (· + 48) ++ 101 :: rest) =
      .ok (List.foldl (fun (res : Int) (c : Nat) => wrap64 (wrap64 (res * 10) + (c : Int))) res ds, rest) := by
  induction ds with
  | nil => intro res; simp [readIntLoop]
  | cons c t ih =>
    intro res
    have hc : c ≤ 9 := hds c (List.mem_cons_self c t)
    simp only [List.map_cons, List.cons_append, readIntLoop, List.foldl_cons]
    rw [if_neg (by omega), if_pos (by omega)]
    have hcast : ((c + 48 : Nat) : Int) - 48 = (c : Int) := by push_cast; ring
    rw [hcast]
    exact ih (fun d hd => hds d (List.mem_cons_of_mem c hd)) _

theorem foldl_stepI_eq_wrap (ds : List Nat) : ∀ a : Int,
    List.foldl (fun (res : Int) (c : Nat) => wrap64 (wrap64 (res * 10) + (c : Int))) (wrap64 a) ds =
      wrap64 (List.foldl (fun (res : Int) (c : Nat) => res * 10 + (c : Int)) a ds) := by
  induction ds with
  | nil => intro a; rfl
  | cons c t ih =>
    intro a
    simp only [List.foldl_cons]
    have h1 : wrap64 (wrap64 (wrap64 a * 10) + (c : Int)) = wrap64 (a * 10 + (c : Int)) := by
      simp only [wrap64]
      omega
    rw [h1, ih]

theorem foldl_int_nat (ds : List Nat) : ∀ a : Nat,
    List.foldl (fun (res : Int) (c : Nat) => res * 10 + (c : Int)) (a : Int) ds =
      ((List.foldl (fun (res : Nat) (c : Nat) => res * 10 + c) a ds : Nat) : Int) := by
  induction ds with
  | nil => intro a; rfl
  | cons c t ih =>
    intro a
    simp only [List.foldl_cons]
    have : (a : Int) * 10 + (c : Int) = ((a * 10 + c : Nat) : Int) := by push_cast; ring
    rw [this, ih]

theorem readStrLen_digits (ds : List Nat) (hds : ∀ d ∈ ds, d ≤ 9) (rest : List Nat) :
    ∀ len : Nat, readStrLen len (ds.map (· + 48) ++ 58 :: rest) =
      .ok (List.foldl
        (fun len c => (((len * 10) % 18446744073709551616 + (c + 48)) % 18446744073709551616
          + 18446744073709551616 - 48) % 18446744073709551616) len ds, rest) := by
  induction ds with
  | nil => intro len; simp [readStrLen]
  | cons c t ih =>
    intro len
    have hc : c ≤ 9 := hds c (List.mem_cons_self c t)
    simp only [List.map_cons, List.cons_append, readStrLen, List.foldl_cons]
    rw [if_neg (by omega), if_pos (by omega)]
    exact ih (fun d hd => hds d (List.mem_cons_of_mem c hd)) _

theorem foldl_stepW_mod (ds : List Nat) : ∀ a : Nat,
    List.foldl
      (fun len c => (((len * 10) % 18446744073709551616 + (c + 48)) % 18446744073709551616
        + 18446744073709551616 - 48) % 18446744073709551616) (a % 18446744073709551616) ds =
      (List.foldl (fun len c => len * 10 + c) a ds) % 18446744073709551616 := by
  induction ds with
  | nil => intro a; rfl
  | cons c t ih =>
    intro a
    simp only [List.foldl_cons]
    have h1 : (((a % 18446744073709551616 * 10) % 18446744073709551616 + (c + 48))
        % 18446744073709551616 + 18446744073709551616 - 48) % 18446744073709551616
        = (a * 10 + c) % 18446744073709551616 := by omega
    rw [h1]
    exact ih (a * 10 + c)

theorem write_string_ne_nil (s : List Nat) : write_string s ≠ [] := by
  simp only [write_string]
  intro h
  rcases List.append_eq_nil.1 h with ⟨h1, h2⟩
  exact nomatch h2

theorem read_string_write_string (s : List Nat) (h : s.length < 18446744073709551616)
    (rest : List Nat) :
    ∀ b bs, write_string s = b :: bs →
      (48 ≤ b ∧ b ≤ 57) ∧ read_string b (bs ++ rest) = .ok (s, rest) := by
  obtain ⟨c, cs, hd⟩ := List.exists_cons_of_ne_nil (natDigits_ne_nil s.length)
  have hc9 : c ≤ 9 := natDigits_le9 c (by rw [hd]; exact List.mem_cons_self c cs)
  have hcs9 : ∀ d ∈ cs, d ≤ 9 := fun d hdm =>
    natDigits_le9 d (by rw [hd]; exact List.mem_cons_of_mem c hdm)
  have hws : write_string s = (c + 48) :: (cs.map (· + 48) ++ 58 :: s) := by
    simp [write_string, hd]
  intro b bs he
  rw [hws] at he
  injection he with hb hbs
  subst hb
  subst hbs
  refine ⟨⟨by omega, by omega⟩, ?_⟩
  simp only [read_string]
  rw [if_pos (⟨by omega, by omega⟩ : 48 ≤ c + 48 ∧ c + 48 ≤ 57)]
  have harr : (cs.map (· + 48) ++ 58 :: s) ++ rest = cs.map (· + 48) ++ 58 :: (s ++ rest) := by
    simp
  rw [harr, readStrLen_digits cs hcs9 _ (c + 48 - 48)]
  have hstep : c + 48 - 48 = c := by omega
  have hm := foldl_stepW_mod cs c
  rw [Nat.mod_eq_of_lt (by omega : c < 18446744073709551616)] at hm
  have hv : List.foldl (fun len c => len * 10 + c) c cs = s.length := by
    have h0 := natDigits_foldl_eq s.length
    rw [hd] at h0
    simpa using h0
  rw [hstep, hm, hv, Nat.mod_eq_of_lt h]
  exact takeN_exact s rest

theorem read_integer_intRepr {i : Int} (h1 : -9223372036854775808 ≤ i)
    (h2 : i < 9223372036854775808) (rest : List Nat) :
    read_integer (intRepr i ++ 101 :: rest) = .ok (i, rest) := by
  by_cases hneg : i < 0
  · have habs : ((i.natAbs : Int)) = -i := Int.ofNat_natAbs_of_nonpos (le_of_lt hneg)
    have hf : List.foldl (fun (res : Int) (c : Nat) => wrap64 (wrap64 (res * 10) + (c : Int)))
        0 (natDigits i.natAbs) = wrap64 ((i.natAbs : Int)) := by
      rw [← wrap64_zero, foldl_stepI_eq_wrap,
        show ((0 : Int) = ((0 : Nat) : Int)) from rfl, foldl_int_nat,
        natDigits_foldl_eq]
    have hr : wrap64 (-1 * wrap64 ((i.natAbs : Int))) = i := by
      rw [habs]
      simp only [wrap64]
      omega
    have hloop := readIntLoop_digits (natDigits i.natAbs) natDigits_le9 rest 0
    rw [hf] at hloop
    simp only [intRepr, if_pos hneg, List.cons_append]
    simp only [read_integer, if_true, hloop, hr]
  · have hpos : 0 ≤ i := not_lt.1 hneg
    have htn : ((i.toNat : Int)) = i := Int.toNat_of_nonneg hpos
    obtain ⟨c, cs, hd⟩ := List.exists_cons_of_ne_nil (natDigits_ne_nil i.toNat)
    have hc9 : c ≤ 9 := natDigits_le9 c (by rw [hd]; exact List.mem_cons_self c cs)
    have hf : List.foldl (fun (res : Int) (c : Nat) => wrap64 (wrap64 (res * 10) + (c : Int)))
        0 (natDigits i.toNat) = wrap64 ((i.toNat : Int)) := by
      rw [← wrap64_zero, foldl_stepI_eq_wrap,
        show ((0 : Int) = ((0 : Nat) : Int)) from rfl, foldl_int_nat,
        natDigits_foldl_eq]
    have hr : wrap64 (1 * wrap64 ((i.toNat : Int))) = i := by
      rw [htn]
      simp only [wrap64]
      omega
    have hloop := readIntLoop_digits (natDigits i.toNat) natDigits_le9 rest 0
    rw [hf] at hloop
    simp only [intRepr, if_neg hneg, hd, List.map_cons, List.cons_append]
    simp only [read_integer, if_neg (by omega : ¬ c + 48 = 45)]
    rw [show ((c + 48) :: (cs.map (· + 48) ++ 101 :: rest)
        = (c :: cs).map (· + 48) ++ 101 :: rest) from by simp, ← hd]
    simp only [hloop, hr]

theorem write_string_length_ge (s : List Nat) : 2 ≤ (write_string s).length := by
  simp only [write_string, List.length_append, List.length_cons, List.length_map]
  have := natDigits_ne_nil s.length
  have : 1 ≤ (natDigits s.length).length := by
    cases hc : natDigits s.length with
    | nil => exact absurd hc (natDigits_ne_nil s.length)
    | cons a t => simp
  omega

theorem write_pairs_length_ge (ps : List (List Nat × Value)) :
    ps.length ≤ (write_pairs ps).length := by
  induction ps with
  | nil => simp [write_pairs]
  | cons p t ih =>
    obtain ⟨k, v⟩ := p
    simp only [write_pairs, List.length_append, List.length_cons]
    have := write_string_length_ge k
    omega

theorem mem_write_pairs_le {ps : List (List Nat × Value)} {p : List Nat × Value}
    (h : p ∈ ps) : (write p.2).length ≤ (write_pairs ps).length := by
  induction ps with
  | nil => exact absurd h (List.not_mem_nil p)
  | cons q t ih =>
    obtain ⟨k, v⟩ := q
    simp only [write_pairs, List.length_append]
    rcases List.mem_cons.1 h with he | hm
    · subst he
      rw [show (((k, v) : List Nat × Value).2 = v) from rfl]
      omega
    · have := ih hm
      omega

theorem noListPairs_mem {ps : List (List Nat × Value)} (h : noListPairs ps = true)
    {p : List Nat × Value} (hp : p ∈ ps) : noList p.2 = true := by
  induction ps with
  | nil => exact absurd hp (List.not_mem_nil p)
  | cons q t ih =>
    obtain ⟨k, v⟩ := q
    simp only [noListPairs, Bool.and_eq_true] at h
    rcases List.mem_cons.1 hp with he | hm
    · subst he; exact h.1
    · exact ih h.2 hm

theorem validPairs_mem_val {ps : List (List Nat × Value)} (h : validPairs ps = true)
    {p : List Nat × Value} (hp : p ∈ ps) : validV p.2 = true := by
  induction ps with
  | nil => exact absurd hp (List.not_mem_nil p)
  | cons q t ih =>
    obtain ⟨k, v⟩ := q
    simp only [validPairs, Bool.and_eq_true] at h
    rcases List.mem_cons.1 hp with he | hm
    · subst he; exact h.2.1
    · exact ih h.2.2 hm

theorem validPairs_mem_key {ps : List (List Nat × Value)} (h : validPairs ps = true)
    {p : List Nat × Value} (hp : p ∈ ps) : p.1.length < 18446744073709551616 := by
  induction ps with
  | nil => exact absurd hp (List.not_mem_nil p)
  | cons q t ih =>
    obtain ⟨k, v⟩ := q
    simp only [validPairs, Bool.and_eq_true, decide_eq_true_eq] at h
    rcases List.mem_cons.1 hp with he | hm
    · subst he; exact h.1.1
    · exact ih h.2.2 hm

theorem read_dict_loop_pairs (rd : List Nat → DRes (Value × List Nat))
    (ps : List (List Nat × Value))
    (hrd : ∀ p ∈ ps, ∀ r : List Nat, rd (write p.2 ++ r) = .ok (p.2, r))
    (hk : ∀ p ∈ ps, p.1.length < 18446744073709551616) :
    ∀ fuel m rest, ps.length < fuel →
      read_dict_loop rd fuel m (write_pairs ps ++ 101 :: rest) =
        .ok (ps.foldl (fun m p => mapInsert m p.1 p.2) m, rest) := by
  induction ps with
  | nil =>
    intro fuel m rest hf
    cases fuel with
    | zero => omega
    | succ f => simp [write_pairs, read_dict_loop]
  | cons p t ih =>
    intro fuel m rest hf
    obtain ⟨k, v⟩ := p
    cases fuel with
    | zero => omega
    | succ f =>
      obtain ⟨b, bs, hb⟩ := List.exists_cons_of_ne_nil (write_string_ne_nil k)
      obtain ⟨⟨hb1, hb2⟩, hrs⟩ :=
        read_string_write_string k (hk _ (List.mem_cons_self _ t))
          (write v ++ (write_pairs t ++ 101 :: rest)) b bs hb
      have hshape : write_pairs ((k, v) :: t) ++ 101 :: rest
          = b :: (bs ++ (write v ++ (write_pairs t ++ 101 :: rest))) := by
        simp only [write_pairs, hb, List.append_assoc, List.cons_append]
      have hvp : rd (write v ++ (write_pairs t ++ 101 :: rest))
          = .ok (v, write_pairs t ++ 101 :: rest) :=
        hrd (k, v) (List.mem_cons_self _ t) (write_pairs t ++ 101 :: rest)
      have hrec := ih (fun p hp r => hrd p (List.mem_cons_of_mem _ hp) r)
        (fun p hp => hk p (List.mem_cons_of_mem _ hp)) f (mapInsert m k v) rest (by
          simp only [List.length_cons] at hf
          omega)
      rw [hshape]
      simp only [read_dict_loop, if_neg (by omega : ¬ b = 101), hrs, hvp, hrec,
        List.foldl_cons]

theorem read_write_noList_aux : ∀ (n : Nat) (v : Value), sizeOf v ≤ n →
    noList v = true → validV v = true →
    ∀ (fuel : Nat) (rest : List Nat), 2 * (write v).length ≤ fuel →
      read fuel (write v ++ rest) = .ok (v, rest) := by
  intro n
  induction n with
  | zero =>
    intro v hsz
    exfalso
    cases v <;> simp at hsz
  | succ n ihn =>
  intro v hsz hnl hv fuel rest hf
  cases v with
  | String s =>
    simp only [validV, Bool.and_eq_true, decide_eq_true_eq] at hv
    have hw : write (.String s) = write_string s := by simp [write]
    obtain ⟨b, bs, hb⟩ := List.exists_cons_of_ne_nil (write_string_ne_nil s)
    obtain ⟨⟨hb1, hb2⟩, hrs⟩ := read_string_write_string s hv.1 rest b bs hb
    rw [hw, hb] at hf ⊢
    cases fuel with
    | zero => simp at hf
    | succ f =>
      simp only [List.cons_append, read, if_neg (by omega : ¬ b = 105),
        if_neg (by omega : ¬ b = 108), if_neg (by omega : ¬ b = 100),
        if_pos (⟨hb1, hb2⟩ : 48 ≤ b ∧ b ≤ 57), hrs]
  | Integer i =>
    simp only [validV, Bool.and_eq_true, decide_eq_true_eq] at hv
    have hw : write (.Integer i) = 105 :: intRepr i ++ [101] := by
      simp [write, write_integer]
    rw [hw] at hf ⊢
    cases fuel with
    | zero => simp at hf
    | succ f =>
      simp only [List.cons_append, read, if_true]
      rw [show ((intRepr i ++ [101]) ++ rest = intRepr i ++ 101 :: rest) from by simp]
      simp only [read_integer_intRepr hv.1 hv.2 rest]
  | List l => exact absurd hnl (by simp [noList])
  | Dictionary d =>
    simp only [validV, Bool.and_eq_true] at hv
    simp only [noList] at hnl
    have hsort := sorted_pairwise hv.1
    have hw : write (.Dictionary d) = 100 :: write_pairs d ++ [101] := by
      simp [write, write_dictionary, sortByKey_eq_of_sorted hsort]
    rw [hw] at hf ⊢
    cases fuel with
    | zero => simp at hf
    | succ f =>
      simp only [List.cons_append, read, if_neg (by omega : ¬ (100 : Nat) = 105),
        if_neg (by omega : ¬ (100 : Nat) = 108), if_true]
      rw [show ((write_pairs d ++ [101]) ++ rest = write_pairs d ++ 101 :: rest) from by simp]
      have hlen : d.length < f := by
        have h1 := write_pairs_length_ge d
        simp only [List.length_cons, List.length_append] at hf
        omega
      have hrd : ∀ p ∈ d, ∀ r : List Nat, read f (write p.2 ++ r) = .ok (p.2, r) := by
        intro p hp r
        have hb : 2 * (write p.2).length ≤ f := by
          have := mem_write_pairs_le hp
          simp only [List.length_cons, List.length_append] at hf
          omega
        have hsp : sizeOf p.2 ≤ n := by
          have hm := List.sizeOf_lt_of_mem hp
          have hp2 : sizeOf p.2 < sizeOf p := by
            obtain ⟨a, b⟩ := p
            simp only [Prod.mk.sizeOf_spec]
            omega
          have hds : sizeOf (Value.Dictionary d) = 1 + sizeOf d := by simp
          omega
        exact ihn p.2 hsp (noListPairs_mem hnl hp) (validPairs_mem_val hv.2 hp) f r hb
      have hk : ∀ p ∈ d, p.1.length < 18446744073709551616 := fun p hp =>
        validPairs_mem_key hv.2 hp
      simp only [read_dict_loop_pairs (read f) d hrd hk f [] rest hlen]
      rw [show (d.foldl (fun m p => mapInsert m p.1 p.2) [] = buildMap d) from rfl,
        buildMap_of_sorted hsort]

theorem read_write_noList (v : Value) (hnl : noList v = true) (hv : validV v = true)
    (fuel : Nat) (rest : List Nat) (hf : 2 * (write v).length ≤ fuel) :
    read fuel (write v ++ rest) = .ok (v, rest) :=
  read_write_noList_aux (sizeOf v) v le_rfl hnl hv fuel rest hf

theorem mem_insSorted {p r : List Nat × Value} {l : List (List Nat × Value)}
    (h : r ∈ insSorted p l) : r = p ∨ r ∈ l := by
  induction l with
  | nil =>
    simp only [insSorted, List.mem_singleton] at h
    exact .inl h
  | cons q t ih =>
    simp only [insSorted] at h
    split at h
    · rcases List.mem_cons.1 h with he | ht
      · exact .inr (he ▸ List.mem_cons_self _ _)
      · rcases ih ht with he | ht'
        · exact .inl he
        · exact .inr (List.mem_cons_of_mem _ ht')
    · rcases List.mem_cons.1 h with he | ht
      · exact .inl he
      · exact .inr ht

theorem mem_sortByKey {r : List Nat × Value} {d : List (List Nat × Value)}
    (h : r ∈ sortByKey d) : r ∈ d := by
  induction d with
  | nil => exact absurd h (List.not_mem_nil r)
  | cons p t ih =>
    have : sortByKey (p :: t) = insSorted p (sortByKey t) := rfl
    rw [this] at h
    rcases mem_insSorted h with he | ht
    · exact he ▸ List.mem_cons_self _ _
    · exact List.mem_cons_of_mem _ (ih ht)

theorem writeSinkString_total (s buf : List Nat) :
    writeSinkString (fun _ _ => true) s buf = .ok (buf ++ write_string s) := by
  simp [writeSinkString, sinkWrite, write_string]

theorem writeSinkItems_total (l : List Value)
    (h : ∀ v ∈ l, ∀ b : List Nat, writeSink (fun _ _ => true) v b = .ok (b ++ write v)) :
    ∀ buf, writeSinkItems (fun _ _ => true) l buf = .ok (buf ++ write_items l) := by
  induction l with
  | nil => intro buf; simp [writeSinkItems, write_items]
  | cons v t ih =>
    intro buf
    simp only [writeSinkItems, h v (List.mem_cons_self v t) buf,
      ih (fun w hw b => h w (List.mem_cons_of_mem v hw) b) (buf ++ write v)]
    rw [show (write_items (v :: t) = write v ++ write_items t) from by
      simp [write_items]]
    simp [List.append_assoc]

theorem writeSinkPairs_total (ps : List (List Nat × Value))
    (h : ∀ p ∈ ps, ∀ b : List Nat, writeSink (fun _ _ => true) p.2 b = .ok (b ++ write p.2)) :
    ∀ buf, writeSinkPairs (fun _ _ => true) ps buf = .ok (buf ++ write_pairs ps) := by
  induction ps with
  | nil => intro buf; simp [writeSinkPairs, write_pairs]
  | cons p t ih =>
    intro buf
    obtain ⟨k, v⟩ := p
    have hv : writeSink (fun _ _ => true) v (buf ++ write_string k)
        = .ok ((buf ++ write_string k) ++ write v) :=
      h (k, v) (List.mem_cons_self _ t) (buf ++ write_string k)
    simp only [writeSinkPairs, writeSinkString_total, hv,
      ih (fun q hq b => h q (List.mem_cons_of_mem _ hq) b) _]
    rw [show (write_pairs ((k, v) :: t) = write_string k ++ write v ++ write_pairs t) from by
      simp [write_pairs]]
    simp [List.append_assoc]

theorem writeSink_total_aux : ∀ (n : Nat) (v : Value), sizeOf v ≤ n →
    ∀ buf : List Nat, writeSink (fun _ _ => true) v buf = .ok (buf ++ write v) := by
  intro n
  induction n with
  | zero =>
    intro v hsz
    exfalso
    cases v <;> simp at hsz
  | succ n ihn =>
  intro v hsz buf
  cases v with
  | String s =>
    rw [show (write (.String s) = write_string s) from by simp [write]]
    simp only [writeSink]
    exact writeSinkString_total s buf
  | Integer i =>
    rw [show (write (.Integer i) = 105 :: intRepr i ++ [101]) from by
      simp [write, write_integer]]
    simp [writeSink, sinkWrite]
  | List l =>
    have hm : ∀ v ∈ l, ∀ b : List Nat,
        writeSink (fun _ _ => true) v b = .ok (b ++ write v) := by
      intro v hv b
      have hs : sizeOf v ≤ n := by
        have := List.sizeOf_lt_of_mem hv
        have hls : sizeOf (Value.List l) = 1 + sizeOf l := by simp
        omega
      exact ihn v hs b
    simp only [writeSink, sinkWrite, if_pos rfl, writeSinkItems_total l hm]
    rw [show (write (.List l) = 108 :: write_items l ++ [101]) from by
      simp [write, write_list]]
    simp [List.append_assoc]
  | Dictionary d =>
    have hm : ∀ p ∈ sortByKey d, ∀ b : List Nat,
        writeSink (fun _ _ => true) p.2 b = .ok (b ++ write p.2) := by
      intro p hp b
      have hs : sizeOf p.2 ≤ n := by
        have h1 := List.sizeOf_lt_of_mem (mem_sortByKey hp)
        have h2 : sizeOf p.2 < sizeOf p := by
          obtain ⟨a, c⟩ := p
          simp only [Prod.mk.sizeOf_spec]
          omega
        have h3 : sizeOf (Value.Dictionary d) = 1 + sizeOf d := by simp
        omega
      exact ihn p.2 hs b
    simp only [writeSink, sinkWrite, if_pos rfl, writeSinkPairs_total (sortByKey d) hm]
    rw [show (write (.Dictionary d) = 100 :: write_pairs (sortByKey d) ++ [101]) from by
      simp [write, write_dictionary]]
    simp [List.append_assoc]

theorem writeSink_total (v : Value) (buf : List Nat) :
    writeSink (fun _ _ => true) v buf = .ok (buf ++ write v) :=
  writeSink_total_aux (sizeOf v) v le_rfl buf

theorem readIntLoop_bad_char (ds : List Nat) (hds : ∀ d ∈ ds, 48 ≤ d ∧ d ≤ 57)
    {c : Nat} (hc1 : ¬(48 ≤ c ∧ c ≤ 57)) (hc2 : c ≠ 101) (rest : List Nat) :
    ∀ res : Int, readIntLoop res (ds ++ c :: rest) = .err (.UnexpectedCharacter c .integer) := by
  induction ds with
  | nil =>
    intro res
    simp only [List.nil_append, readIntLoop]
    rw [if_neg hc2, if_neg hc1]
  | cons d t ih =>
    intro res
    have hd := hds d (List.mem_cons_self d t)
    simp only [List.cons_append, readIntLoop]
    rw [if_neg (by omega : ¬ d = 101), if_pos hd]
    exact ih (fun x hx => hds x (List.mem_cons_of_mem d hx)) _

theorem decode_minus (rest : List Nat) :
    decode (45 :: rest) = .err (.UnexpectedCharacter 45 .firstByte) := by
  simp only [decode]
  obtain ⟨f, hf⟩ : ∃ f, 2 * (45 :: rest).length + 2 = f + 1 :=
    ⟨2 * (45 :: rest).length + 1, by omega⟩
  rw [hf]
  simp only [read, if_neg (by omega : ¬ (45 : Nat) = 105),
    if_neg (by omega : ¬ (45 : Nat) = 108), if_neg (by omega : ¬ (45 : Nat) = 100),
    if_neg (by omega : ¬ (48 ≤ (45 : Nat) ∧ 45 ≤ 57))]

theorem pop_value_integer_missing {m : List (List Nat × Value)} {k : List Nat}
    (h : mapGet m k = none) :
    pop_value_integer m k = (m, .error (.MissingKey k)) := by
  simp only [pop_value_integer, mapRemove_of_none h]

theorem pop_value_integer_found {m : List (List Nat × Value)} {k : List Nat} {i : Int}
    (h : mapGet m k = some (.Integer i)) :
    pop_value_integer m k = ((mapRemove m k).2, .ok i) := by
  rcases hrm : mapRemove m k with ⟨r, t⟩
  have hr : r = some (.Integer i) := by
    rw [← h, ← mapRemove_fst m k, hrm]
  subst hr
  simp [pop_value_integer, hrm]

theorem pop_value_integer_bad {m : List (List Nat × Value)} {k : List Nat} {v : Value}
    (h : mapGet m k = some v) (hv : ∀ i, v ≠ .Integer i) :
    pop_value_integer m k = ((mapRemove m k).2, .error (.BadType k v)) := by
  rcases hrm : mapRemove m k with ⟨r, t⟩
  have hr : r = some v := by
    rw [← h, ← mapRemove_fst m k, hrm]
  subst hr
  cases v with
  | Integer i => exact absurd rfl (hv i)
  | String s => simp [pop_value_integer, hrm]
  | List l => simp [pop_value_integer, hrm]
  | Dictionary d => simp [pop_value_integer, hrm]

theorem pop_value_bytestring_missing {m : List (List Nat × Value)} {k : List Nat}
    (h : mapGet m k = none) :
    pop_value_bytestring m k = (m, .error (.MissingKey k)) := by
  simp only [pop_value_bytestring, mapRemove_of_none h]

theorem pop_value_bytestring_found {m : List (List Nat × Value)} {k : List Nat} {s : List Nat}
    (h : mapGet m k = some (.String s)) :
    pop_value_bytestring m k = ((mapRemove m k).2, .ok s) := by
  rcases hrm : mapRemove m k with ⟨r, t⟩
  have hr : r = some (.String s) := by
    rw [← h, ← mapRemove_fst m k, hrm]
  subst hr
  simp [pop_value_bytestring, hrm]

theorem pop_value_bytestring_bad {m : List (List Nat × Value)} {k : List Nat} {v : Value}
    (h : mapGet m k = some v) (hv : ∀ s, v ≠ .String s) :
    pop_value_bytestring m k = ((mapRemove m k).2, .error (.BadType k v)) := by
  rcases hrm : mapRemove m k with ⟨r, t⟩
  have hr : r = some v := by
    rw [← h, ← mapRemove_fst m k, hrm]
  subst hr
  cases v with
  | String s => exact absurd rfl (hv s)
  | Integer i => simp [pop_value_bytestring, hrm]
  | List l => simp [pop_value_bytestring, hrm]
  | Dictionary d => simp [pop_value_bytestring, hrm]

/-- C1: the claim says decode(encode(v)) == v for every Value; the code
violates it. Evaluating the code at the failing input List [List [], Integer 0]
(a valid Value): `read_list` breaks on the closing e of the inner list without
consuming it, so the outer list ends early and decode returns List [List []],
dropping Integer 0. -/
theorem c1_roundtrip_fails_on_nested_list :
    validV (.List [.List [], .Integer 0]) = true ∧
    decode (encode (.List [.List [], .Integer 0])) = .ok (.List [.List []]) ∧
    Value.List [.List []] ≠ .List [.List [], .Integer 0] := by
  have henc : encode (.List [.List [], .Integer 0]) = [108, 108, 101, 105, 48, 101, 101] := by
    simp [encode, write, write_list, write_items, write_integer, intRepr,
      natDigits, natDigitsAux]
  refine ⟨?_, ?_, ?_⟩
  · simp only [validV, validItems]
    decide
  · rw [henc]
    rfl
  · simp

/-- C2: encoding a Dictionary emits d, the key/value pairs with keys in strict
ascending byte-wise lexicographic order, then e; two hash maps built from the
same key/value pairs inserted in different orders encode byte-identically. -/
theorem c2_dictionary_canonical_encoding (ps1 ps2 : List (List Nat × Value))
    (hperm : ps1.Perm ps2) (hnd : (ps1.map Prod.fst).Nodup) :
    encode (.Dictionary (buildMap ps1)) = encode (.Dictionary (buildMap ps2)) ∧
    encode (.Dictionary (buildMap ps1)) = 100 :: write_pairs (buildMap ps1) ++ [101] ∧
    sortedKeysStrict (buildMap ps1) = true := by
  have hb := buildMap_perm hperm hnd
  have hs := buildMap_pairwise ps1
  refine ⟨by rw [hb], ?_, pairwise_sorted hs⟩
  rw [show (encode (.Dictionary (buildMap ps1)) = write_dictionary (buildMap ps1)) from by
    simp [encode, write]]
  simp [write_dictionary, sortByKey_eq_of_sorted hs]

theorem c2_witness :
    (([([99, 111, 119], Value.String [109, 111, 111]),
       ([115, 112, 97, 109], Value.String [101, 103, 103, 115])] :
        List (List Nat × Value)).Perm
      [([115, 112, 97, 109], Value.String [101, 103, 103, 115]),
       ([99, 111, 119], Value.String [109, 111, 111])]) ∧
    (([([99, 111, 119], Value.String [109, 111, 111]),
       ([115, 112, 97, 109], Value.String [101, 103, 103, 115])].map Prod.fst).Nodup) ∧
    encode (.Dictionary (buildMap
      [([99, 111, 119], Value.String [109, 111, 111]),
       ([115, 112, 97, 109], Value.String [101, 103, 103, 115])]))
      = encode (.Dictionary (buildMap
      [([115, 112, 97, 109], Value.String [101, 103, 103, 115]),
       ([99, 111, 119], Value.String [109, 111, 111])])) :=
  ⟨List.Perm.swap _ _ _, by decide,
    (c2_dictionary_canonical_encoding _ _ (List.Perm.swap _ _ _) (by decide)).1⟩

/-- C3 counterexample: the claim says an integer body with no digit — in
particular a lone minus — fails with a syntax error; but decode accepts
i-e and returns Integer 0. -/
theorem c3_counterexample : decode [105, 45, 101] = .ok (.Integer 0) := rfl

/-- C3 (amended): any non-digit byte other than the terminating e inside the
integer body fails with an unexpected-character error (e.g. i12a34e), but an
integer body with no digit before the e — ie or a lone minus i-e — is accepted
and decodes to Integer 0. -/
theorem c3_amended :
    (∀ ds : List Nat, (∀ d ∈ ds, 48 ≤ d ∧ d ≤ 57) →
      ∀ c : Nat, ¬(48 ≤ c ∧ c ≤ 57) → c ≠ 101 →
        ∀ (rest : List Nat) (res : Int),
          readIntLoop res (ds ++ c :: rest) = .err (.UnexpectedCharacter c .integer)) ∧
    decode [105, 49, 50, 97, 51, 52, 101] = .err (.UnexpectedCharacter 97 .integer) ∧
    decode [105, 101] = .ok (.Integer 0) ∧
    decode [105, 45, 101] = .ok (.Integer 0) := by
  refine ⟨?_, rfl, rfl, rfl⟩
  intro ds hds c hc1 hc2 rest res
  exact readIntLoop_bad_char ds hds hc1 hc2 rest res

theorem c3_amended_witness :
    (∀ d ∈ [(49 : Nat), 50], 48 ≤ d ∧ d ≤ 57) ∧ ¬(48 ≤ (97 : Nat) ∧ 97 ≤ 57) ∧ (97 : Nat) ≠ 101 ∧
    readIntLoop 0 ([49, 50] ++ 97 :: [51, 52, 101])
      = .err (.UnexpectedCharacter 97 .integer) :=
  ⟨by decide, by decide, by decide,
    c3_amended.1 [49, 50] (by decide) 97 (by decide) (by decide) [51, 52, 101] 0⟩

/-- C4: the claim says decode returns the leading value of every buffer that
begins with one complete valid bencode value. Its trailing-garbage examples do
hold, but the code violates the general claim: for the buffer
encode(List [List [Integer 1], Integer 2]) (= lli1eei2ee, which begins with
that complete value), decode stops at the unconsumed terminator of the nested
list and returns List [List [Integer 1]] instead of the leading value. -/
theorem c4_prefix_tolerance_fails_on_nested_list :
    decode [105, 49, 50, 51, 52, 101, 97, 97, 97, 97] = .ok (.Integer 1234) ∧
    decode [53, 58, 97, 98, 99, 100, 101, 102, 103] = .ok (.String [97, 98, 99, 100, 101]) ∧
    validV (.List [.List [.Integer 1], .Integer 2]) = true ∧
    decode (encode (.List [.List [.Integer 1], .Integer 2]))
      = .ok (.List [.List [.Integer 1]]) ∧
    Value.List [.List [.Integer 1]] ≠ .List [.List [.Integer 1], .Integer 2] := by
  have henc : encode (.List [.List [.Integer 1], .Integer 2])
      = [108, 108, 105, 49, 101, 101, 105, 50, 101, 101] := by
    simp [encode, write, write_list, write_items, write_integer, intRepr,
      natDigits, natDigitsAux]
  refine ⟨rfl, rfl, ?_, ?_, ?_⟩
  · simp only [validV, validItems]
    decide
  · rw [henc]
    rfl
  · simp

/-- C5: an input whose string production carries a negative length — any input
starting with the minus byte, such as -1: — fails with an unexpected-character
syntax error at top-level dispatch, while 0: decodes to the empty byte-string. -/
theorem c5_negative_length_rejected_zero_ok :
    (∀ rest : List Nat, decode (45 :: rest) = .err (.UnexpectedCharacter 45 .firstByte)) ∧
    decode [48, 58] = .ok (.String []) :=
  ⟨decode_minus, rfl⟩

theorem c5_witness :
    decode [45, 49, 58] = .err (.UnexpectedCharacter 45 .firstByte) :=
  c5_negative_length_rejected_zero_ok.1 [49, 58]

theorem read_succ_dict (fuel : Nat) (r : List Nat) :
    read (fuel + 1) (100 :: r)
      = match read_dict_loop (read fuel) fuel [] r with
        | .ok (d, rem) => .ok (.Dictionary d, rem)
        | .err e => .err e
        | .panicked => .panicked
        | .outOfFuel => .outOfFuel := rfl

/-- C6 counterexample: the claim says that whenever a decoded dictionary input
repeats a key, decode succeeds and keeps the LAST occurrence. On
d1:ali1ee1:ai2ee (key a twice, first value the list [1], last value 2) decode
succeeds but keeps the FIRST occurrence: the unconsumed list terminator ends
the dictionary before the second pair is read. -/
theorem c6_counterexample :
    decode [100, 49, 58, 97, 108, 105, 49, 101, 101, 49, 58, 97, 105, 50, 101, 101]
      = .ok (.Dictionary [([97], .List [.Integer 1])]) := rfl

/-- C6 (amended): whenever the duplicated pairs carry List-free values (so the
decoder reaches every pair), the decoder succeeds and the resulting Dictionary
maps the key to its last occurrence; the earlier occurrence is overwritten by
the map insert. -/
theorem c6_amended (k : List Nat) (v1 v2 : Value) (rest : List Nat)
    (hk : k.length < 18446744073709551616)
    (h1 : noList v1 = true) (hv1 : validV v1 = true)
    (h2 : noList v2 = true) (hv2 : validV v2 = true) :
    decode (100 :: write_pairs [(k, v1), (k, v2)] ++ 101 :: rest)
      = .ok (.Dictionary [(k, v2)]) := by
  simp only [decode]
  obtain ⟨f, hf, hfge⟩ : ∃ f,
      2 * (100 :: write_pairs [(k, v1), (k, v2)] ++ 101 :: rest).length + 2 = f + 1 ∧
      2 * (write_pairs [(k, v1), (k, v2)]).length + 5 ≤ f := by
    refine ⟨2 * (100 :: write_pairs [(k, v1), (k, v2)] ++ 101 :: rest).length + 1,
      by omega, ?_⟩
    simp only [List.length_cons, List.length_append]
    omega
  rw [hf]
  have hrd : ∀ p ∈ [(k, v1), (k, v2)], ∀ r : List Nat,
      read f (write p.2 ++ r) = .ok (p.2, r) := by
    intro p hp r
    have hble : (write p.2).length ≤ (write_pairs [(k, v1), (k, v2)]).length :=
      mem_write_pairs_le hp
    have hpn : noList p.2 = true ∧ validV p.2 = true := by
      simp only [List.mem_cons, List.not_mem_nil, or_false] at hp
      rcases hp with rfl | rfl
      · exact ⟨h1, hv1⟩
      · exact ⟨h2, hv2⟩
    exact read_write_noList p.2 hpn.1 hpn.2 f r (by omega)
  have hks : ∀ p ∈ [(k, v1), (k, v2)], p.1.length < 18446744073709551616 := by
    intro p hp
    simp only [List.mem_cons, List.not_mem_nil, or_false] at hp
    rcases hp with rfl | rfl <;> exact hk
  have hlen : ([(k, v1), (k, v2)] : List (List Nat × Value)).length < f := by
    simp only [List.length_cons, List.length_nil]
    omega
  have hfold : List.foldl (fun m p => mapInsert m p.1 p.2) [] [(k, v1), (k, v2)]
      = [(k, v2)] := by
    simp [mapInsert, lexLt_irrefl]
  rw [List.cons_append, read_succ_dict f (write_pairs [(k, v1), (k, v2)] ++ 101 :: rest)]
  simp only [read_dict_loop_pairs (read f) [(k, v1), (k, v2)] hrd hks f [] rest hlen, hfold]

theorem c6_amended_witness :
    ([97] : List Nat).length < 18446744073709551616 ∧
    noList (.Integer 1) = true ∧ validV (.Integer 1) = true ∧
    noList (.Integer 2) = true ∧ validV (.Integer 2) = true ∧
    decode (100 :: write_pairs [([97], .Integer 1), ([97], .Integer 2)] ++ 101 :: [])
      = .ok (.Dictionary [([97], .Integer 2)]) :=
  ⟨by decide, by simp [noList], by simp only [validV]; decide,
   by simp [noList], by simp only [validV]; decide,
   c6_amended [97] (.Integer 1) (.Integer 2) [] (by decide) (by simp [noList])
     (by simp only [validV]; decide) (by simp [noList]) (by simp only [validV]; decide)⟩

/-- C7: encoding is total for every Value: against a sink that accepts every
write (the in-memory Vec of encode), write succeeds for every Value and
appends exactly the encoding — there is no value-shape error and the unwrap
inside encode is unreachable. -/
theorem c7_encode_total (v : Value) (buf : List Nat) :
    writeSink (fun _ _ => true) v buf = .ok (buf ++ encode v) ∧ encode v = write v :=
  ⟨writeSink_total v buf, rfl⟩

theorem c7_witness :
    writeSink (fun _ _ => true) (.Integer 0) [] = .ok ([] ++ encode (.Integer 0)) ∧
    encode (.Integer 0) = write (.Integer 0) :=
  c7_encode_total (.Integer 0) []

/-- C8: inputs that end while the decoder expects more bytes — empty input,
truncated integer, truncated string payload, unterminated list, list truncated
after an element, unterminated dictionary, dictionary truncated before a value
— fail with UnexpectedEndOfBuffer, an error kind distinct from IOError and
from every UnexpectedCharacter. -/
theorem c8_end_of_input_errors :
    decode [] = .err .UnexpectedEndOfBuffer ∧
    decode [105, 49, 50] = .err .UnexpectedEndOfBuffer ∧
    decode [53, 58, 97, 98, 99] = .err .UnexpectedEndOfBuffer ∧
    decode [108] = .err .UnexpectedEndOfBuffer ∧
    decode [108, 105, 49, 101] = .err .UnexpectedEndOfBuffer ∧
    decode [100] = .err .UnexpectedEndOfBuffer ∧
    decode [100, 49, 58, 97] = .err .UnexpectedEndOfBuffer ∧
    DecodeError.UnexpectedEndOfBuffer ≠ .IOError ∧
    (∀ (b : Nat) (ctx : CharCtx), DecodeError.UnexpectedEndOfBuffer ≠ .UnexpectedCharacter b ctx) :=
  ⟨rfl, rfl, rfl, rfl, rfl, rfl, rfl, by decide, fun b ctx h => nomatch h⟩

theorem c8_witness :
    DecodeError.UnexpectedEndOfBuffer ≠ .UnexpectedCharacter 50 .integer :=
  c8_end_of_input_errors.2.2.2.2.2.2.2.2 50 .integer

/-- C9 counterexample: the claim says every optional accessor returns
Ok(Some(value)) when the key is present with the expected variant; but for
pop_value_utf8_string_option a present String value with invalid UTF-8 bytes
(0xFF) yields a FromUtf8Error, not Ok(Some _). -/
theorem c9_counterexample :
    pop_value_utf8_string_option [([107], .String [255])] [107]
      = ([], .error (.FromUtf8Error [255])) ∧
    (pop_value_utf8_string_option [([107], .String [255])] [107]).2 ≠ .ok (some [255]) :=
  ⟨rfl, fun h => nomatch h⟩

/-- C9 (amended): the optional accessors return Ok(None) on a missing key and
BadType on a wrong variant; pop_value_integer_option and
pop_value_bytestring_option return Ok(Some value) when the key holds the
expected variant, while pop_value_utf8_string_option additionally requires the
byte-string to be valid UTF-8, surfacing FromUtf8Error otherwise. -/
theorem c9_amended :
    (∀ (m : List (List Nat × Value)) (k : List Nat), mapGet m k = none →
      pop_value_integer_option m k = (m, .ok none)
      ∧ pop_value_bytestring_option m k = (m, .ok none)
      ∧ pop_value_utf8_string_option m k = (m, .ok none)) ∧
    (∀ (m : List (List Nat × Value)) (k : List Nat) (i : Int),
      mapGet m k = some (.Integer i) →
        pop_value_integer_option m k = ((mapRemove m k).2, .ok (some i))) ∧
    (∀ (m : List (List Nat × Value)) (k s : List Nat), mapGet m k = some (.String s) →
      pop_value_bytestring_option m k = ((mapRemove m k).2, .ok (some s))
      ∧ (validUtf8 s = true →
          pop_value_utf8_string_option m k = ((mapRemove m k).2, .ok (some s)))
      ∧ (validUtf8 s = false →
          pop_value_utf8_string_option m k
            = ((mapRemove m k).2, .error (.FromUtf8Error s)))) ∧
    (∀ (m : List (List Nat × Value)) (k : List Nat) (v : Value),
      mapGet m k = some v → (∀ i, v ≠ .Integer i) →
        (pop_value_integer_option m k).2 = .error (.BadType k v)) ∧
    (∀ (m : List (List Nat × Value)) (k : List Nat) (v : Value),
      mapGet m k = some v → (∀ s, v ≠ .String s) →
        (pop_value_bytestring_option m k).2 = .error (.BadType k v)
        ∧ (pop_value_utf8_string_option m k).2 = .error (.BadType k v)) := by
  refine ⟨?_, ?_, ?_, ?_, ?_⟩
  · intro m k h
    refine ⟨?_, ?_, ?_⟩
    · simp [pop_value_integer_option, pop_value_integer_missing h]
    · simp [pop_value_bytestring_option, pop_value_bytestring_missing h]
    · simp [pop_value_utf8_string_option, pop_value_utf8_string,
        pop_value_bytestring_missing h]
  · intro m k i h
    simp [pop_value_integer_option, pop_value_integer_found h]
  · intro m k s h
    refine ⟨?_, ?_, ?_⟩
    · simp [pop_value_bytestring_option, pop_value_bytestring_found h]
    · intro hu
      simp [pop_value_utf8_string_option, pop_value_utf8_string,
        pop_value_bytestring_found h, hu]
    · intro hu
      simp [pop_value_utf8_string_option, pop_value_utf8_string,
        pop_value_bytestring_found h, hu]
  · intro m k v h hv
    simp [pop_value_integer_option, pop_value_integer_bad h hv]
  · intro m k v h hv
    refine ⟨?_, ?_⟩
    · simp [pop_value_bytestring_option, pop_value_bytestring_bad h hv]
    · simp [pop_value_utf8_string_option, pop_value_utf8_string,
        pop_value_bytestring_bad h hv]

theorem c9_amended_witness :
    mapGet [([107], Value.Integer 5)] [107] = some (.Integer 5) ∧
    pop_value_integer_option [([107], Value.Integer 5)] [107]
      = ((mapRemove [([107], Value.Integer 5)] [107]).2, .ok (some 5)) :=
  ⟨rfl, c9_amended.2.1 [([107], Value.Integer 5)] [107] 5 rfl⟩

/-- C10: pop_value_integer and pop_value_bytestring remove the entry before
type-checking it, so on a BadType error the key/value pair has been removed:
the returned map no longer contains the key and is one entry shorter. -/
theorem c10_pop_removes_on_bad_type :
    (∀ (m : List (List Nat × Value)) (k : List Nat) (v : Value),
      (m.map Prod.fst).Nodup → mapGet m k = some v → (∀ i, v ≠ .Integer i) →
        pop_value_integer m k = ((mapRemove m k).2, .error (.BadType k v))
        ∧ mapGet (pop_value_integer m k).1 k = none
        ∧ (pop_value_integer m k).1.length + 1 = m.length) ∧
    (∀ (m : List (List Nat × Value)) (k : List Nat) (v : Value),
      (m.map Prod.fst).Nodup → mapGet m k = some v → (∀ s, v ≠ .String s) →
        pop_value_bytestring m k = ((mapRemove m k).2, .error (.BadType k v))
        ∧ mapGet (pop_value_bytestring m k).1 k = none
        ∧ (pop_value_bytestring m k).1.length + 1 = m.length) := by
  constructor
  · intro m k v hnd h hv
    have he := pop_value_integer_bad h hv
    refine ⟨he, ?_, ?_⟩
    · rw [he]
      exact mapGet_remove_self hnd
    · rw [he]
      exact mapRemove_length h
  · intro m k v hnd h hv
    have he := pop_value_bytestring_bad h hv
    refine ⟨he, ?_, ?_⟩
    · rw [he]
      exact mapGet_remove_self hnd
    · rw [he]
      exact mapRemove_length h

theorem c10_witness :
    (([([107], Value.String [97])] : List (List Nat × Value)).map Prod.fst).Nodup ∧
    mapGet [([107], Value.String [97])] [107] = some (.String [97]) ∧
    pop_value_integer [([107], Value.String [97])] [107]
      = ((mapRemove [([107], Value.String [97])] [107]).2,
        .error (.BadType [107] (.String [97]))) :=
  ⟨by decide, rfl,
    (c10_pop_removes_on_bad_type.1 [([107], Value.String [97])] [107] (.String [97])
      (by decide) rfl (fun i h => nomatch h)).1⟩

end Bencode
